import Mathlib

/-!
Shallow embedding of the ledger classification, aggregation and
report-assembly engine of `src/server/index.mjs` (Niu-Ma-Tools).

Text is modelled as `List Char`.  The ECMAScript string and regex
operations used by the source (`trim`, `includes`, `match` with a lazy
capture group, global `replace`, `Array.prototype.sort` with a
comparator) are embedded explicitly below; every definition mirrors the
corresponding line of the source file.
-/

/-- Characters treated as whitespace by ECMAScript `String.prototype.trim`
and by the regex class `\s` (WhiteSpace together with LineTerminator). -/
def isJsWs (c : Char) : Bool :=
  c = ' ' || c = '\t' || c = '\n' || c = '\r' || c = '\x0b' || c = '\x0c' ||
  c = '\u00A0' || c = '\u1680' || ('\u2000' ≤ c && c ≤ '\u200A') ||
  c = '\u2028' || c = '\u2029' || c = '\u202F' || c = '\u205F' ||
  c = '\u3000' || c = '\uFEFF'

/-- ECMAScript `String.prototype.trim`: remove whitespace from both ends. -/
def jsTrim (s : List Char) : List Char :=
  (s.dropWhile isJsWs).rdropWhile isJsWs

/-- Characters the ECMAScript regex metacharacter `.` does not match
(the LineTerminator set). -/
def isLineTerm (c : Char) : Bool :=
  c = '\n' || c = '\r' || c = '\u2028' || c = '\u2029'

/-- The fixed array `ledgerValidDepartments` of the source, in its source
order. -/
def ledgerValidDepartments : List String :=
  ["市政中心", "环卫中心", "园林中心", "直属二大队", "直属三大队",
   "智慧停车管理中心", "向阳大队", "铁东大队", "全宁大队", "振兴大队",
   "松州大队", "玉龙大队", "兴安大队", "松城大队", "人事财务股"]

/-- The canonical department list at the character-list level. -/
def ledgerValidDepartmentsL : List (List Char) :=
  ledgerValidDepartments.map String.data

/-- The insertion-ordered pairs of the JS `Map` `ledgerKeywordMap`.  All
keys are distinct, so `Map` iteration visits exactly these pairs in this
order. -/
def ledgerKeywordMap : List (List Char × List Char) :=
  [("向阳城管大队".data, "向阳大队".data),
   ("向阳大队".data, "向阳大队".data),
   ("铁东城管大队".data, "铁东大队".data),
   ("铁东大队".data, "铁东大队".data),
   ("全宁城管大队".data, "全宁大队".data),
   ("全宁大队".data, "全宁大队".data),
   ("振兴城管大队".data, "振兴大队".data),
   ("振兴大队".data, "振兴大队".data),
   ("松州城管大队".data, "松州大队".data),
   ("松州大队".data, "松州大队".data),
   ("玉龙城管大队".data, "玉龙大队".data),
   ("玉龙大队".data, "玉龙大队".data),
   ("兴安城管大队".data, "兴安大队".data),
   ("兴安大队".data, "兴安大队".data),
   ("松城城管大队".data, "松城大队".data),
   ("松城大队".data, "松城大队".data),
   ("三大队".data, "直属三大队".data),
   ("二大队".data, "直属二大队".data),
   ("北京养护集团".data, "市政中心".data),
   ("市政".data, "市政中心".data),
   ("市政部".data, "市政中心".data),
   ("环境卫生服务中心".data, "环卫中心".data),
   ("京环公司".data, "环卫中心".data),
   ("环卫".data, "环卫中心".data),
   ("园林".data, "园林中心".data),
   ("亿城".data, "园林中心".data),
   ("停车管理".data, "智慧停车管理中心".data),
   ("停车服务管理".data, "智慧停车管理中心".data),
   ("人事财务".data, "人事财务股".data)]

/-- The five regexes of `ledgerPatterns`.  Each has the shape
`lit₁(.*?)lit₂`, so it is represented by the pair of its literal parts. -/
def ledgerPatterns : List (List Char × List Char) :=
  [("责成".data, "进行".data),
   ("立即转".data, "进行".data),
   ("责成".data, "处办".data),
   ("立即责成".data, "进行".data),
   ("立即责成".data, "处办".data)]

/-- Lazy expansion of `(.*?)` before the literal `suf`: the shortest
line-terminator-free middle segment after which `suf` occurs.  `none`
means this start position cannot be completed to a match. -/
def matchMid (suf : List Char) : List Char → Option (List Char)
  | [] => if suf.isEmpty then some [] else none
  | c :: cs =>
    if suf.isPrefixOf (c :: cs) then some []
    else if isLineTerm c then none
    else (matchMid suf cs).map (c :: ·)

/-- ECMAScript matching of `pre(.*?)suf` against `s`: start positions are
tried left to right; at a start where `pre` occurs the capture grows
lazily; a failed start moves on to the next one.  The result is the
capture group of the leftmost match. -/
def execPattern (pre suf : List Char) : List Char → Option (List Char)
  | [] => if pre.isEmpty then matchMid suf [] else none
  | c :: cs =>
    if pre.isPrefixOf (c :: cs) then
      match matchMid suf ((c :: cs).drop pre.length) with
      | some cap => some cap
      | none => execPattern pre suf cs
    else execPattern pre suf cs

/-- Characters removed by the source's `replace(/[()（）\s]/g, '')`:
ASCII and full-width parentheses together with regex whitespace. -/
def isParen (c : Char) : Bool :=
  c = '(' || c = ')' || c = '（' || c = '）'

/-- Global replacement `replace(/科室/g, '')`: delete every left-to-right
non-overlapping occurrence of the two-character word 科室. -/
def removeKeshi : List Char → List Char
  | [] => []
  | [c] => [c]
  | c :: d :: cs =>
    if c = '科' && d = '室' then removeKeshi cs
    else c :: removeKeshi (d :: cs)

/-- The capture post-processing of `assignLedgerDepartment`: `trim()`,
then `replace(/[()（）\s]/g, '')`, then `replace(/科室/g, '')`, then a
final `trim()`. -/
def cleanCapture (cap : List Char) : List Char :=
  jsTrim (removeKeshi ((jsTrim cap).filter (fun c => !(isParen c || isJsWs c))))

/-- Resolution of a capture against the canonical list: the cleaned form
is looked up exactly (`includes`), then as a substring of the first
containing department (`find`). -/
def resolveCapture (cap : List Char) : Option (List Char) :=
  if cleanCapture cap ∈ ledgerValidDepartmentsL then some (cleanCapture cap)
  else ledgerValidDepartmentsL.find? (fun valid => decide (cleanCapture cap <:+: valid))

/-- The keyword loop of `assignLedgerDepartment`: the department of the
first table pair whose key occurs in the text. -/
def findKeyword (s : List Char) : Option (List Char) :=
  (ledgerKeywordMap.find? (fun p => decide (p.1 <:+: s))).map (fun p => p.2)

/-- The pattern loop of `assignLedgerDepartment`: patterns are scanned in
order; a pattern whose match has a non-empty capture is cleaned and
resolved; an unresolved capture falls through to the next pattern. -/
def tryPatterns (s : List Char) : List (List Char × List Char) → Option (List Char)
  | [] => none
  | (pre, suf) :: rest =>
    match execPattern pre suf s with
    | some cap =>
      if cap.isEmpty then tryPatterns s rest
      else
        match resolveCapture cap with
        | some d => some d
        | none => tryPatterns s rest
    | none => tryPatterns s rest

/-- The unmatched marker 未匹配 returned by the source. -/
def unmatchedMarker : List Char := "未匹配".data

/-- Shallow embedding of `assignLedgerDepartment` on character lists. -/
def assignLedgerDepartmentL (content : List Char) : List Char :=
  if (jsTrim content).isEmpty then unmatchedMarker
  else
    match findKeyword (jsTrim content) with
    | some department => department
    | none =>
      match tryPatterns (jsTrim content) ledgerPatterns with
      | some department => department
      | none => unmatchedMarker

/-- Shallow embedding of `assignLedgerDepartment` on strings. -/
def assignLedgerDepartment (content : String) : String :=
  String.mk (assignLedgerDepartmentL content.data)

/-- The first pattern capture used by the specified classifier: the
capture group of the first pattern (in list order) whose match yields a
non-empty captured span. -/
def firstPatternCapture (s : List Char) : List (List Char × List Char) → Option (List Char)
  | [] => none
  | (pre, suf) :: rest =>
    match execPattern pre suf s with
    | some cap => if cap.isEmpty then firstPatternCapture s rest else some cap
    | none => firstPatternCapture s rest

/-- The departments the pattern loop resolves, pattern by pattern (the
filter-map of resolution over the pattern list); the loop's overall
result is the head of this list. -/
def resolvedCandidates (s : List Char) : List (List Char × List Char) → List (List Char)
  | [] => []
  | (pre, suf) :: rest =>
    match execPattern pre suf s with
    | some cap =>
      if cap.isEmpty then resolvedCandidates s rest
      else
        match resolveCapture cap with
        | some d => d :: resolvedCandidates s rest
        | none => resolvedCandidates s rest
    | none => resolvedCandidates s rest

/-- Decoded spreadsheet rows: insertion-ordered field-name/value pairs,
as produced for the handler by `sheet_to_json`. -/
abbrev Row := List (String × String)

/-- Keys of a row, in object insertion order (`Object.keys`). -/
def keysOf (row : Row) : List String := row.map Prod.fst

/-- JS object spread `{ ...row, 权属部门: department }`: overwrite the key
in place when present, else append it last. -/
def setField : Row → String → String → Row
  | [], k, v => [(k, v)]
  | (k0, v0) :: rest, k, v =>
    if k0 = k then (k0, v) :: rest else (k0, v0) :: setField rest k v

/-- The reply-content cell of a row: `hasOwnProperty` guarded access with
empty-string fallback. -/
def contentOf (row : Row) : String :=
  (List.lookup "答复内容" row).getD ""

/-- The derived department cell of a row. -/
def deptOf (row : Row) : String :=
  (List.lookup "权属部门" row).getD ""

/-- The handler's `processedRows`: every raw row extended with the
derived 权属部门 field. -/
def processedRowsOf (rawRows : List Row) : List Row :=
  rawRows.map (fun row => setField row "权属部门" (assignLedgerDepartment (contentOf row)))

/-- The handler's `matchedRows`: processed rows whose derived department
is canonical. -/
def matchedRowsOf (rawRows : List Row) : List Row :=
  (processedRowsOf rawRows).filter (fun row => decide (deptOf row ∈ ledgerValidDepartments))

/-- The handler's `unmatchedRows`: processed rows whose derived
department is not canonical. -/
def unmatchedRowsOf (rawRows : List Row) : List Row :=
  (processedRowsOf rawRows).filter (fun row => !decide (deptOf row ∈ ledgerValidDepartments))

/-- The handler's `columnOrderBase`: the header order without the
derived column. -/
def columnOrderBaseOf (headerOrder : List String) : List String :=
  headerOrder.filter (fun h => decide (h ≠ "权属部门"))

/-- One step of the handler's `extraColumns` collection over the keys of
one row: keep a key that is non-empty, is not the derived column, and is
in neither the base order nor the accumulator. -/
def addExtraKeys (base acc : List String) (ks : List String) : List String :=
  ks.foldl (fun acc k =>
    if k ≠ "" ∧ k ≠ "权属部门" ∧ k ∉ base ∧ k ∉ acc then acc ++ [k] else acc) acc

/-- The handler's `extraColumns` loop over all processed rows. -/
def extraColumnsOf (base : List String) (rows : List Row) : List String :=
  rows.foldl (fun acc row => addExtraKeys base acc (keysOf row)) []

/-- The handler's `columnOrder`: base order, then extra columns, then the
derived column last. -/
def columnOrderOf (headerOrder : List String) (rawRows : List Row) : List String :=
  columnOrderBaseOf headerOrder ++
    extraColumnsOf (columnOrderBaseOf headerOrder) (processedRowsOf rawRows) ++ ["权属部门"]

/-- One `counts.set(dept, (counts.get(dept) ?? 0) + 1)` step on the
insertion-ordered entry list of the JS `Map`. -/
def bumpCount : List (String × Nat) → String → List (String × Nat)
  | [], d => [(d, 1)]
  | (k, n) :: rest, d =>
    if k = d then (k, n + 1) :: rest else (k, n) :: bumpCount rest d

/-- The handler's `counts` map, as its insertion-ordered entry list. -/
def countsOf (matchedRows : List Row) : List (String × Nat) :=
  matchedRows.foldl (fun m row => bumpCount m (deptOf row)) []

/-- The sort comparator of `analysisEntries`: count descending, ties by
`localeCompare` (modelled by the abstract collator `collate`). -/
def cmpEntry (collate : String → String → Int) (a b : String × Nat) : Int :=
  if a.2 ≠ b.2 then (b.2 : Int) - (a.2 : Int) else collate a.1 b.1

/-- Stable insertion of one element for the sort model. -/
def insertLe {α : Type} (le : α → α → Bool) (x : α) : List α → List α
  | [] => [x]
  | y :: ys => if le x y then x :: y :: ys else y :: insertLe le x ys

/-- Stable sort modelling `Array.prototype.sort` with a consistent
comparator (any ECMAScript-conforming stable sort yields this list). -/
def sortLe {α : Type} (le : α → α → Bool) : List α → List α
  | [] => []
  | x :: xs => insertLe le x (sortLe le xs)

/-- The handler's `analysisEntries`: the count entries sorted by the
comparator. -/
def sortedEntriesOf (collate : String → String → Int) (m : List (String × Nat)) :
    List (String × Nat) :=
  sortLe (fun a b => decide (cmpEntry collate a b ≤ 0)) m

/-- The handler's `analysisRows`: one row per sorted entry (ratio
rendered by the abstract percentage formatter `fmt`, guarded against a
zero denominator), then the three fixed summary rows with empty ratio. -/
def analysisRowsOf (fmt : Nat → Nat → String) (entries : List (String × Nat))
    (totalProcessed totalUnmatched grandTotal : Nat) : List (String × Nat × String) :=
  entries.map (fun e =>
    (e.1, e.2, if 0 < totalProcessed then fmt e.2 totalProcessed else "0.00%")) ++
  [("已办结", totalProcessed, ""), ("核实退回", totalUnmatched, ""), ("总计", grandTotal, "")]

/-- Everything the successful branch of the handler assembles from the
classified rows. -/
structure LedgerReport where
  columnOrder : List String
  matchedRows : List Row
  unmatchedRows : List Row
  analysisEntries : List (String × Nat)
  analysisRows : List (String × Nat × String)
  totalProcessed : Nat
  totalUnmatched : Nat
  grandTotal : Nat
deriving DecidableEq, Repr

/-- The successful branch of the `ledger-analysis` handler. -/
def buildReport (collate : String → String → Int) (fmt : Nat → Nat → String)
    (headerOrder : List String) (rawRows : List Row) : LedgerReport :=
  let matchedRows := matchedRowsOf rawRows
  let unmatchedRows := unmatchedRowsOf rawRows
  let totalProcessed := matchedRows.length
  let totalUnmatched := unmatchedRows.length
  let grandTotal := totalProcessed + totalUnmatched
  let entries := sortedEntriesOf collate (countsOf matchedRows)
  { columnOrder := columnOrderOf headerOrder rawRows
    matchedRows := matchedRows
    unmatchedRows := unmatchedRows
    analysisEntries := entries
    analysisRows := analysisRowsOf fmt entries totalProcessed totalUnmatched grandTotal
    totalProcessed := totalProcessed
    totalUnmatched := totalUnmatched
    grandTotal := grandTotal }

/-- The domain failure responses of the `ledger-analysis` handler. -/
inductive LedgerFailure
  | emptyFile
  | missingColumn
  | noMatches
deriving DecidableEq, Repr

/-- The `ledger-analysis` handler from decoded rows onwards: the empty
check, the 答复内容 presence check, classification, the zero-match check,
and report assembly, in source order. -/
def ledgerPipeline (collate : String → String → Int) (fmt : Nat → Nat → String)
    (headerOrder : List String) (rawRows : List Row) :
    Except LedgerFailure LedgerReport :=
  if rawRows.isEmpty then .error .emptyFile
  else if "答复内容" ∉ headerOrder ∧ ∀ row ∈ rawRows, "答复内容" ∉ keysOf row then
    .error .missingColumn
  else if (matchedRowsOf rawRows).length = 0 then .error .noMatches
  else .ok (buildReport collate fmt headerOrder rawRows)

/-- Cleaning of a capture as described by the specification sentence of
claim C7: trim surrounding whitespace, strip parenthesis characters, and
remove the qualifier 科室 only when it is a trailing suffix, leaving the
interior otherwise unmodified. -/
def specCleanC7 (cap : List Char) : List Char :=
  let t := (jsTrim cap).filter (fun c => !isParen c)
  if "科室".data.isSuffixOf t then t.take (t.length - 2) else t

/-- First-seen-order deduplication used to state the specified column
order. -/
def firstSeen (acc : List String) : List String → List String
  | [] => acc
  | k :: ks => if k ∈ acc then firstSeen acc ks else firstSeen (acc ++ [k]) ks

/-- Total count stored in an entry list. -/
def sumCounts (m : List (String × Nat)) : Nat := (m.map (fun e => e.2)).sum

/-- The output column order as the specification words it: header order
minus the derived column, then every column name seen in any row but
absent from the header in first-seen order, then the derived column. -/
def specColumnOrder (headerOrder : List String) (rawRows : List Row) : List String :=
  headerOrder.filter (fun h => decide (h ≠ "权属部门")) ++
    firstSeen [] (((rawRows.map keysOf).flatten).filter (fun k => decide (k ∉ headerOrder))) ++
    ["权属部门"]

/-- A needle none of whose characters are dropped survives `dropWhile`. -/
theorem IsInfix.dropWhile_of_forall {α : Type} {p : α → Bool} {k : List α}
    (hk : k ≠ []) (hall : ∀ c ∈ k, p c = false) :
    ∀ {l : List α}, k <:+: l → k <:+: l.dropWhile p := by
  intro l h
  induction l with
  | nil => simpa using h
  | cons a t ih =>
    rw [List.dropWhile_cons]
    split
    · rcases List.infix_cons_iff.mp h with hpre | hinf
      · cases k with
        | nil => exact absurd rfl hk
        | cons kh kt =>
          have hha := (List.cons_prefix_cons.mp hpre).1
          have := hall kh (List.mem_cons_self kh kt)
          subst hha
          simp_all
      · exact ih hinf
    · exact h

/-- A needle none of whose characters are dropped survives `rdropWhile`. -/
theorem IsInfix.rdropWhile_of_forall {α : Type} {p : α → Bool} {k : List α}
    (hk : k ≠ []) (hall : ∀ c ∈ k, p c = false) :
    ∀ {l : List α}, k <:+: l → k <:+: l.rdropWhile p := by
  intro l h
  have hrev : k.reverse <:+: l.reverse := List.reverse_infix.mpr h
  have hkrev : k.reverse ≠ [] := by simpa using hk
  have hallrev : ∀ c ∈ k.reverse, p c = false := by
    intro c hc; exact hall c (List.mem_reverse.mp hc)
  have hstep := IsInfix.dropWhile_of_forall hkrev hallrev hrev
  rw [List.rdropWhile]
  have := List.reverse_infix.mpr hstep
  simpa using this

/-- Occurrence in a text and in its trimmed form agree for a non-empty
needle containing no whitespace. -/
theorem infix_jsTrim_iff {k l : List Char} (hk : k ≠ [])
    (hall : ∀ c ∈ k, isJsWs c = false) :
    k <:+: jsTrim l ↔ k <:+: l := by
  constructor
  · intro h
    have h1 : jsTrim l <:+: l := by
      have h2 : (l.dropWhile isJsWs).rdropWhile isJsWs <+: l.dropWhile isJsWs :=
        List.rdropWhile_prefix isJsWs (l.dropWhile isJsWs)
      exact h2.isInfix.trans (List.dropWhile_suffix isJsWs).isInfix
    exact h.trans h1
  · intro h
    exact IsInfix.rdropWhile_of_forall hk hall
      (IsInfix.dropWhile_of_forall hk hall h)

/-- Two `find?` scans with pointwise equal predicates agree. -/
theorem find?_congr_of_forall {α : Type} {p q : α → Bool} :
    ∀ {l : List α}, (∀ a ∈ l, p a = q a) → l.find? p = l.find? q := by
  intro l
  induction l with
  | nil => intro _; rfl
  | cons a t ih =>
    intro h
    rw [List.find?_cons, List.find?_cons, h a (List.mem_cons_self a t)]
    split
    · rfl
    · exact ih (fun b hb => h b (List.mem_cons_of_mem a hb))

/-- A successful `find?` is characterised by its index: the hit is in the
list and nothing before it satisfies the predicate. -/
theorem find?_first_getD {α : Type} {p : α → Bool} {w : α} (dflt : α) :
    ∀ {l : List α}, l.find? p = some w →
      ∃ i, i < l.length ∧ l.getD i dflt = w ∧ p w = true ∧
        ∀ j, j < i → p (l.getD j dflt) = false := by
  intro l
  induction l with
  | nil => intro h; simp at h
  | cons a t ih =>
    intro h
    rw [List.find?_cons] at h
    split at h
    · refine ⟨0, by simp, by simpa using (Option.some.inj h), ?_, by omega⟩
      rename_i hpa
      rw [Option.some.inj h] at hpa
      exact hpa
    · obtain ⟨i, hi, hget, hpw, hbefore⟩ := ih h
      refine ⟨i + 1, by simpa using hi, by simpa using hget, hpw, ?_⟩
      intro j hj
      cases j with
      | zero =>
        rename_i hpa
        simpa using hpa
      | succ j0 => simpa using hbefore j0 (by omega)

/-- Every key of the keyword table is non-empty and whitespace-free. -/
theorem ledgerKeywordMap_keys_sane :
    ∀ p ∈ ledgerKeywordMap, p.1 ≠ [] ∧ ∀ c ∈ p.1, isJsWs c = false := by decide

/-- The keyword loop over the trimmed text selects the same pair as a
scan of the raw text: keywords contain no whitespace, so trimming cannot
create or destroy an occurrence. -/
theorem findKeyword_jsTrim (content : List Char) :
    findKeyword (jsTrim content) =
      (ledgerKeywordMap.find? (fun p => decide (p.1 <:+: content))).map (fun p => p.2) := by
  unfold findKeyword
  congr 1
  apply find?_congr_of_forall
  intro p hp
  obtain ⟨hne, hws⟩ := ledgerKeywordMap_keys_sane p hp
  simp [infix_jsTrim_iff hne hws]

/-- A non-empty needle has no occurrence in the empty text. -/
theorem ne_nil_of_infix {k l : List Char} (hk : k ≠ []) (h : k <:+: l) :
    l ≠ [] := by
  intro hl
  subst hl
  exact hk (List.infix_nil.mp h)

/-- Departments produced by the pattern-capture resolution are canonical. -/
theorem resolveCapture_mem {cap d : List Char}
    (h : resolveCapture cap = some d) : d ∈ ledgerValidDepartmentsL := by
  unfold resolveCapture at h
  split at h
  · cases h
    assumption
  · exact List.mem_of_find?_eq_some h

/-- Departments produced by the pattern loop are canonical. -/
theorem tryPatterns_mem {s d : List Char} :
    ∀ {pats : List (List Char × List Char)},
      tryPatterns s pats = some d → d ∈ ledgerValidDepartmentsL := by
  intro pats
  induction pats with
  | nil => intro h; simp [tryPatterns] at h
  | cons p rest ih =>
    intro h
    obtain ⟨pre, suf⟩ := p
    rw [tryPatterns] at h
    split at h
    · split at h
      · exact ih h
      · split at h
        · rename_i d0 hres
          cases h
          exact resolveCapture_mem hres
        · exact ih h
    · exact ih h

/-- Every department value of the keyword table is canonical. -/
theorem ledgerKeywordMap_values_mem :
    ∀ p ∈ ledgerKeywordMap, p.2 ∈ ledgerValidDepartmentsL := by decide

/-- The classifier only ever returns the unmatched marker or a canonical
department. -/
theorem assignLedgerDepartmentL_range (content : List Char) :
    assignLedgerDepartmentL content = unmatchedMarker ∨
      assignLedgerDepartmentL content ∈ ledgerValidDepartmentsL := by
  unfold assignLedgerDepartmentL
  split
  · exact Or.inl rfl
  · cases hkw : findKeyword (jsTrim content) with
    | some d =>
      simp only [hkw]
      refine Or.inr ?_
      unfold findKeyword at hkw
      obtain ⟨p, hmap, hp2⟩ := Option.map_eq_some'.mp hkw
      rw [← hp2]
      exact ledgerKeywordMap_values_mem p (List.mem_of_find?_eq_some hmap)
    | none =>
      simp only [hkw]
      cases htp : tryPatterns (jsTrim content) ledgerPatterns with
      | some d => exact Or.inr (by simpa [htp] using tryPatterns_mem htp)
      | none => simp [htp]

/-- String-level range of the classifier. -/
theorem assignLedgerDepartment_range (content : String) :
    assignLedgerDepartment content = "未匹配" ∨
      assignLedgerDepartment content ∈ ledgerValidDepartments := by
  unfold assignLedgerDepartment
  rcases assignLedgerDepartmentL_range content.data with h | h
  · rw [h]; exact Or.inl rfl
  · refine Or.inr ?_
    unfold ledgerValidDepartmentsL at h
    obtain ⟨v, hv, hvd⟩ := List.mem_map.mp h
    rw [← hvd]
    exact hv

/-- If the keyword scan of the raw text hits a pair, the classifier
returns that pair's department. -/
theorem assignL_of_find?_keyword {content : List Char} {kd : List Char × List Char}
    (h : ledgerKeywordMap.find? (fun p => decide (p.1 <:+: content)) = some kd) :
    assignLedgerDepartmentL content = kd.2 := by
  have hmem := List.mem_of_find?_eq_some h
  obtain ⟨hne, hws⟩ := ledgerKeywordMap_keys_sane kd hmem
  have hinfix : kd.1 <:+: content := by simpa using List.find?_some h
  have htrim : kd.1 <:+: jsTrim content := (infix_jsTrim_iff hne hws).mpr hinfix
  have htne : jsTrim content ≠ [] := ne_nil_of_infix hne htrim
  have hfk : findKeyword (jsTrim content) = some kd.2 := by
    rw [findKeyword_jsTrim, h, Option.map_some']
  unfold assignLedgerDepartmentL
  rw [if_neg (by simpa [List.isEmpty_iff] using htne), hfk]

/-- The pattern loop returns the first resolvable candidate. -/
theorem tryPatterns_eq_head (s : List Char) :
    ∀ pats, tryPatterns s pats = (resolvedCandidates s pats).head? := by
  intro pats
  induction pats with
  | nil => rfl
  | cons p rest ih =>
    obtain ⟨pre, suf⟩ := p
    cases hexec : execPattern pre suf s with
    | none => simp only [tryPatterns, resolvedCandidates, hexec, ih]
    | some cap =>
      cases hcap : cap.isEmpty with
      | true => simp only [tryPatterns, resolvedCandidates, hexec, hcap, if_true, ih]
      | false =>
        cases hres : resolveCapture cap with
        | some d =>
          simp [tryPatterns, resolvedCandidates, hexec, hcap, hres]
        | none =>
          simp [tryPatterns, resolvedCandidates, hexec, hcap, hres, ih]

/-- If the first non-empty capture resolves, the loop returns its
resolution. -/
theorem tryPatterns_of_firstCapture {s cap d : List Char} :
    ∀ {pats}, firstPatternCapture s pats = some cap →
      resolveCapture cap = some d → tryPatterns s pats = some d := by
  intro pats
  induction pats with
  | nil => intro h _; simp [firstPatternCapture] at h
  | cons p rest ih =>
    intro h hres
    obtain ⟨pre, suf⟩ := p
    cases hexec : execPattern pre suf s with
    | none =>
      simp only [firstPatternCapture, hexec] at h
      simp only [tryPatterns, hexec]
      exact ih h hres
    | some c =>
      cases hc : c.isEmpty with
      | true =>
        simp only [firstPatternCapture, hexec, hc, if_true] at h
        simp only [tryPatterns, hexec, hc, if_true]
        exact ih h hres
      | false =>
        simp only [firstPatternCapture, hexec, hc] at h
        cases h
        simp [tryPatterns, hexec, hc, hres]

/-- On the empty text no ledger pattern matches. -/
theorem firstPatternCapture_nil :
    firstPatternCapture [] ledgerPatterns = none := by decide

/-- A successful first capture forces a non-empty trimmed text. -/
theorem jsTrim_ne_nil_of_firstCapture {content cap : List Char}
    (h : firstPatternCapture (jsTrim content) ledgerPatterns = some cap) :
    jsTrim content ≠ [] := by
  intro hnil
  rw [hnil, firstPatternCapture_nil] at h
  cases h

/-- When no keyword occurs in the trimmed text and the pattern loop is
reached, the classifier returns its result (or the unmatched marker). -/
theorem assignL_pattern_branch {content : List Char}
    (hne : jsTrim content ≠ [])
    (hkw : findKeyword (jsTrim content) = none) :
    assignLedgerDepartmentL content =
      (tryPatterns (jsTrim content) ledgerPatterns).getD unmatchedMarker := by
  unfold assignLedgerDepartmentL
  rw [if_neg (by simpa [List.isEmpty_iff] using hne), hkw]
  cases htp : tryPatterns (jsTrim content) ledgerPatterns <;> simp [htp]

/-- No keyword occurrence in the raw text rules out one in the trimmed
text. -/
theorem findKeyword_none_of_no_occurrence {content : List Char}
    (h : ∀ p ∈ ledgerKeywordMap, ¬(p.1 <:+: content)) :
    findKeyword (jsTrim content) = none := by
  rw [findKeyword_jsTrim]
  rw [Option.map_eq_none']
  rw [List.find?_eq_none]
  intro p hp
  simpa using h p hp

/-- Inserting is a permutation of consing. -/
theorem insertLe_perm {α : Type} (le : α → α → Bool) (x : α) :
    ∀ l : List α, List.Perm (insertLe le x l) (x :: l) := by
  intro l
  induction l with
  | nil => exact List.Perm.refl _
  | cons y ys ih =>
    rw [insertLe]
    split
    · exact List.Perm.refl _
    · exact (ih.cons y).trans (List.Perm.swap x y ys)

/-- The sort model permutes its input. -/
theorem sortLe_perm {α : Type} (le : α → α → Bool) :
    ∀ l : List α, List.Perm (sortLe le l) l := by
  intro l
  induction l with
  | nil => exact List.Perm.refl _
  | cons x xs ih =>
    rw [sortLe]
    exact (insertLe_perm le x (sortLe le xs)).trans (ih.cons x)

/-- Inserting into a sorted list keeps it sorted, for a total transitive
comparison. -/
theorem insertLe_pairwise {α : Type} {le : α → α → Bool}
    (htot : ∀ a b, le a b = true ∨ le b a = true)
    (htrans : ∀ a b c, le a b = true → le b c = true → le a c = true)
    (x : α) :
    ∀ {l : List α}, l.Pairwise (fun a b => le a b = true) →
      (insertLe le x l).Pairwise (fun a b => le a b = true) := by
  intro l h
  induction l with
  | nil => simp [insertLe]
  | cons y ys ih =>
    obtain ⟨hy, hys⟩ := List.pairwise_cons.mp h
    rw [insertLe]
    split
    · rename_i hxy
      refine List.pairwise_cons.mpr ⟨?_, h⟩
      intro z hz
      rcases List.mem_cons.mp hz with hzy | hzys
      · subst hzy; exact hxy
      · exact htrans x y z hxy (hy z hzys)
    · rename_i hxy
      have hyx : le y x = true := by
        rcases htot x y with h1 | h1
        · exact absurd h1 hxy
        · exact h1
      refine List.pairwise_cons.mpr ⟨?_, ih hys⟩
      intro z hz
      rcases List.mem_cons.mp ((insertLe_perm le x ys).mem_iff.mp hz) with hzx | hzys
      · subst hzx; exact hyx
      · exact hy z hzys

/-- The sort model sorts, for a total transitive comparison. -/
theorem sortLe_pairwise {α : Type} {le : α → α → Bool}
    (htot : ∀ a b, le a b = true ∨ le b a = true)
    (htrans : ∀ a b c, le a b = true → le b c = true → le a c = true) :
    ∀ l : List α, (sortLe le l).Pairwise (fun a b => le a b = true) := by
  intro l
  induction l with
  | nil => simp [sortLe]
  | cons x xs ih =>
    rw [sortLe]
    exact insertLe_pairwise htot htrans x ih

/-- One bump adds one to the stored total. -/
theorem sumCounts_bumpCount (d : String) :
    ∀ m : List (String × Nat), sumCounts (bumpCount m d) = sumCounts m + 1 := by
  intro m
  induction m with
  | nil => rfl
  | cons e rest ih =>
    obtain ⟨k, n⟩ := e
    rw [bumpCount]
    split
    · simp [sumCounts]
      omega
    · simp only [sumCounts, List.map_cons, List.sum_cons] at ih ⊢
      omega

/-- Folding the counting map over rows adds one per row. -/
theorem sumCounts_foldl (f : Row → String) :
    ∀ (rows : List Row) (m : List (String × Nat)),
      sumCounts (rows.foldl (fun acc row => bumpCount acc (f row)) m) =
        sumCounts m + rows.length := by
  intro rows
  induction rows with
  | nil => intro m; simp
  | cons r rest ih =>
    intro m
    rw [List.foldl_cons, List.length_cons, ih (bumpCount m (f r)), sumCounts_bumpCount]
    omega

/-- Keys produced by a bump come from the map or are the bumped key. -/
theorem mem_bumpCount {d : String} {e : String × Nat} :
    ∀ {m : List (String × Nat)}, e ∈ bumpCount m d → e ∈ m ∨ e.1 = d := by
  intro m
  induction m with
  | nil =>
    intro h
    simp only [bumpCount] at h
    rcases List.mem_singleton.mp h with h0
    subst h0
    exact Or.inr rfl
  | cons p rest ih =>
    obtain ⟨k, n⟩ := p
    intro h
    rw [bumpCount] at h
    split at h
    · rename_i hk
      rcases List.mem_cons.mp h with h0 | h0
      · subst h0; exact Or.inr hk
      · exact Or.inl (List.mem_cons_of_mem _ h0)
    · rcases List.mem_cons.mp h with h0 | h0
      · subst h0; exact Or.inl (List.mem_cons_self _ _)
      · rcases ih h0 with h1 | h1
        · exact Or.inl (List.mem_cons_of_mem _ h1)
        · exact Or.inr h1

/-- Keys of the folded counting map come from the seed or from the rows. -/
theorem mem_countsFoldl (f : Row → String) :
    ∀ (rows : List Row) (m : List (String × Nat)) (e : String × Nat),
      e ∈ rows.foldl (fun acc row => bumpCount acc (f row)) m →
        e ∈ m ∨ ∃ row ∈ rows, e.1 = f row := by
  intro rows
  induction rows with
  | nil => intro m e h; exact Or.inl h
  | cons r rest ih =>
    intro m e h
    rw [List.foldl_cons] at h
    rcases ih (bumpCount m (f r)) e h with h0 | h0
    · rcases mem_bumpCount h0 with h1 | h1
      · exact Or.inl h1
      · exact Or.inr ⟨r, List.mem_cons_self _ _, h1⟩
    · obtain ⟨row, hrow, heq⟩ := h0
      exact Or.inr ⟨row, List.mem_cons_of_mem _ hrow, heq⟩

/-- Splitting a list by a boolean predicate preserves length. -/
theorem filter_length_split {α : Type} (p : α → Bool) :
    ∀ l : List α,
      (l.filter p).length + (l.filter (fun a => !p a)).length = l.length := by
  intro l
  induction l with
  | nil => rfl
  | cons a t ih =>
    cases hpa : p a <;> simp [List.filter_cons, hpa] <;> omega

/-- Looking up the key just written by the object spread returns the
written value. -/
theorem lookup_setField (k v : String) :
    ∀ row : Row, List.lookup k (setField row k v) = some v := by
  intro row
  induction row with
  | nil => simp [setField, List.lookup]
  | cons p rest ih =>
    obtain ⟨k0, v0⟩ := p
    rw [setField]
    split
    · rename_i hk
      subst hk
      simp [List.lookup]
    · rename_i hk
      rw [List.lookup_cons]
      have : (k == k0) = false := by
        simpa using fun h => hk h.symm
      rw [this]
      exact ih

/-- Writing an absent key appends it to the key order. -/
theorem keysOf_setField_of_not_mem {k : String} (v : String) :
    ∀ {row : Row}, k ∉ keysOf row →
      keysOf (setField row k v) = keysOf row ++ [k] := by
  intro row
  induction row with
  | nil => intro _; simp [setField, keysOf]
  | cons p rest ih =>
    obtain ⟨k0, v0⟩ := p
    intro hk
    rw [setField]
    have hk0 : k0 ≠ k := by
      intro h
      exact hk (by simp [keysOf, h])
    rw [if_neg hk0]
    have hkrest : k ∉ keysOf rest := by
      intro h
      exact hk (by simp [keysOf] at h ⊢; exact Or.inr h)
    simp only [keysOf, List.map_cons] at ih ⊢
    rw [ih hkrest]
    rfl

/-- The derived department of a processed row is the classifier output. -/
theorem deptOf_setField (row : Row) (d : String) :
    deptOf (setField row "权属部门" d) = d := by
  unfold deptOf
  rw [lookup_setField]
  rfl

/-- The unmatched marker is not a canonical department. -/
theorem unmatched_not_valid : "未匹配" ∉ ledgerValidDepartments := by decide

/-- The handler produces no matched rows exactly when every raw row
classifies to the unmatched marker. -/
theorem matchedRows_nil_iff (rawRows : List Row) :
    matchedRowsOf rawRows = [] ↔
      ∀ row ∈ rawRows, assignLedgerDepartment (contentOf row) = "未匹配" := by
  unfold matchedRowsOf processedRowsOf
  rw [List.filter_eq_nil_iff]
  constructor
  · intro h row hrow
    have := h (setField row "权属部门" (assignLedgerDepartment (contentOf row)))
      (List.mem_map.mpr ⟨row, hrow, rfl⟩)
    rw [deptOf_setField] at this
    rcases assignLedgerDepartment_range (contentOf row) with h0 | h0
    · exact h0
    · simp [h0] at this
  · intro h prow hprow
    obtain ⟨row, hrow, hmk⟩ := List.mem_map.mp hprow
    subst hmk
    rw [deptOf_setField]
    simp [h row hrow, unmatched_not_valid]

/-- A successful pipeline run returns exactly the assembled report. -/
theorem ledgerPipeline_ok_inv {collate : String → String → Int}
    {fmt : Nat → Nat → String} {headerOrder : List String} {rawRows : List Row}
    {r : LedgerReport}
    (h : ledgerPipeline collate fmt headerOrder rawRows = .ok r) :
    r = buildReport collate fmt headerOrder rawRows := by
  unfold ledgerPipeline at h
  split at h
  · exact Except.noConfusion h
  · split at h
    · exact Except.noConfusion h
    · split at h
      · exact Except.noConfusion h
      · exact (Except.ok.inj h).symm

/-- Column order stored in the assembled report. -/
theorem buildReport_columnOrder (collate : String → String → Int)
    (fmt : Nat → Nat → String) (headerOrder : List String) (rawRows : List Row) :
    (buildReport collate fmt headerOrder rawRows).columnOrder =
      columnOrderOf headerOrder rawRows := rfl

/-- Matched rows stored in the assembled report. -/
theorem buildReport_matchedRows (collate : String → String → Int)
    (fmt : Nat → Nat → String) (headerOrder : List String) (rawRows : List Row) :
    (buildReport collate fmt headerOrder rawRows).matchedRows =
      matchedRowsOf rawRows := rfl

/-- Unmatched rows stored in the assembled report. -/
theorem buildReport_unmatchedRows (collate : String → String → Int)
    (fmt : Nat → Nat → String) (headerOrder : List String) (rawRows : List Row) :
    (buildReport collate fmt headerOrder rawRows).unmatchedRows =
      unmatchedRowsOf rawRows := rfl

/-- Sorted entries stored in the assembled report. -/
theorem buildReport_analysisEntries (collate : String → String → Int)
    (fmt : Nat → Nat → String) (headerOrder : List String) (rawRows : List Row) :
    (buildReport collate fmt headerOrder rawRows).analysisEntries =
      sortedEntriesOf collate (countsOf (matchedRowsOf rawRows)) := rfl

/-- Analysis table rows stored in the assembled report. -/
theorem buildReport_analysisRows (collate : String → String → Int)
    (fmt : Nat → Nat → String) (headerOrder : List String) (rawRows : List Row) :
    (buildReport collate fmt headerOrder rawRows).analysisRows =
      analysisRowsOf fmt (sortedEntriesOf collate (countsOf (matchedRowsOf rawRows)))
        (matchedRowsOf rawRows).length (unmatchedRowsOf rawRows).length
        ((matchedRowsOf rawRows).length + (unmatchedRowsOf rawRows).length) := rfl

/-- Processed counter stored in the assembled report. -/
theorem buildReport_totalProcessed (collate : String → String → Int)
    (fmt : Nat → Nat → String) (headerOrder : List String) (rawRows : List Row) :
    (buildReport collate fmt headerOrder rawRows).totalProcessed =
      (matchedRowsOf rawRows).length := rfl

/-- Unmatched counter stored in the assembled report. -/
theorem buildReport_totalUnmatched (collate : String → String → Int)
    (fmt : Nat → Nat → String) (headerOrder : List String) (rawRows : List Row) :
    (buildReport collate fmt headerOrder rawRows).totalUnmatched =
      (unmatchedRowsOf rawRows).length := rfl

/-- Grand total stored in the assembled report. -/
theorem buildReport_grandTotal (collate : String → String → Int)
    (fmt : Nat → Nat → String) (headerOrder : List String) (rawRows : List Row) :
    (buildReport collate fmt headerOrder rawRows).grandTotal =
      (matchedRowsOf rawRows).length + (unmatchedRowsOf rawRows).length := rfl

/-- Filtering after dropping an excluded-class leading segment equals
filtering the whole list. -/
theorem filter_dropWhile_of_excl {α : Type} {p q : α → Bool}
    (h : ∀ a, q a = true → p a = false) :
    ∀ l : List α, (l.dropWhile q).filter p = l.filter p := by
  intro l
  induction l with
  | nil => rfl
  | cons a t ih =>
    rw [List.dropWhile_cons]
    split
    · rename_i hqa
      rw [ih, List.filter_cons, h a hqa]
      simp
    · rfl

/-- Filtering after dropping an excluded-class trailing segment equals
filtering the whole list. -/
theorem filter_rdropWhile_of_excl {α : Type} {p q : α → Bool}
    (h : ∀ a, q a = true → p a = false) (l : List α) :
    (l.rdropWhile q).filter p = l.filter p := by
  rw [List.rdropWhile, List.filter_reverse, filter_dropWhile_of_excl h,
    List.filter_reverse, List.reverse_reverse]

/-- Deleting 科室 occurrences introduces no new characters. -/
theorem mem_removeKeshi :
    ∀ {l : List Char} {c : Char}, c ∈ removeKeshi l → c ∈ l := by
  intro l
  induction l using removeKeshi.induct with
  | case1 =>
    intro c h
    simp [removeKeshi] at h
  | case2 c0 =>
    intro c h
    simpa [removeKeshi] using h
  | case3 c0 d cs hcd ih =>
    intro c h
    rw [removeKeshi, if_pos hcd] at h
    exact List.mem_cons_of_mem _ (List.mem_cons_of_mem _ (ih h))
  | case4 c0 d cs hcd ih =>
    intro c h
    rw [removeKeshi, if_neg hcd] at h
    rcases List.mem_cons.mp h with h0 | h0
    · subst h0; exact List.mem_cons_self _ _
    · exact List.mem_cons_of_mem _ (ih h0)

/-- Dropping nothing: `dropWhile` is the identity when no element
satisfies the predicate. -/
theorem dropWhile_eq_self_of_forall {α : Type} {q : α → Bool} :
    ∀ {l : List α}, (∀ a ∈ l, q a = false) → l.dropWhile q = l := by
  intro l h
  cases l with
  | nil => rfl
  | cons a t =>
    rw [List.dropWhile_cons, h a (List.mem_cons_self a t)]
    simp

/-- Trimming is the identity on whitespace-free text. -/
theorem jsTrim_eq_self_of_forall {l : List Char}
    (h : ∀ c ∈ l, isJsWs c = false) : jsTrim l = l := by
  unfold jsTrim
  rw [dropWhile_eq_self_of_forall h, List.rdropWhile,
    dropWhile_eq_self_of_forall (fun c hc => h c (List.mem_reverse.mp hc)),
    List.reverse_reverse]

/-- Characters surviving the parenthesis/whitespace strip are not
whitespace. -/
theorem stripped_no_ws {cap : List Char} :
    ∀ c ∈ cap.filter (fun c => !(isParen c || isJsWs c)), isJsWs c = false := by
  intro c hc
  have := (List.mem_filter.mp hc).2
  simp only [Bool.not_eq_true'] at this
  rcases Bool.or_eq_false_iff.mp this with ⟨_, h2⟩
  exact h2

/-- The two trims in the source's capture cleaning are redundant: the
cleaned capture is the capture with every parenthesis and whitespace
character removed and then every 科室 occurrence deleted. -/
theorem cleanCapture_eq (cap : List Char) :
    cleanCapture cap =
      removeKeshi (cap.filter (fun c => !(isParen c || isJsWs c))) := by
  unfold cleanCapture
  have hexcl : ∀ c : Char, isJsWs c = true →
      (!(isParen c || isJsWs c)) = false := by
    intro c h
    simp [h]
  have h1 : (jsTrim cap).filter (fun c => !(isParen c || isJsWs c)) =
      cap.filter (fun c => !(isParen c || isJsWs c)) := by
    unfold jsTrim
    rw [filter_rdropWhile_of_excl hexcl, filter_dropWhile_of_excl hexcl]
  rw [h1]
  apply jsTrim_eq_self_of_forall
  intro c hc
  exact stripped_no_ws c (mem_removeKeshi hc)

/-- A cons step of the extra-column collection. -/
theorem addExtraKeys_cons (base acc : List String) (k : String) (rest : List String) :
    addExtraKeys base acc (k :: rest) =
      addExtraKeys base
        (if k ≠ "" ∧ k ≠ "权属部门" ∧ k ∉ base ∧ k ∉ acc then acc ++ [k] else acc)
        rest := rfl

/-- The trailing derived key contributed by the object spread never joins
the extra columns. -/
theorem addExtraKeys_append_derived (base acc : List String) (ks : List String) :
    addExtraKeys base acc (ks ++ ["权属部门"]) = addExtraKeys base acc ks := by
  unfold addExtraKeys
  rw [List.foldl_append]
  simp

/-- First-seen collection distributes over appending key streams. -/
theorem firstSeen_append (l1 l2 : List String) :
    ∀ acc, firstSeen acc (l1 ++ l2) = firstSeen (firstSeen acc l1) l2 := by
  induction l1 with
  | nil => intro acc; rfl
  | cons k rest ih =>
    intro acc
    rw [List.cons_append, firstSeen, firstSeen]
    split
    · exact ih acc
    · exact ih (acc ++ [k])

/-- Over sane keys, the source's extra-column step equals first-seen
collection of the keys absent from the header. -/
theorem addExtraKeys_eq_firstSeen (headerOrder : List String) :
    ∀ (ks : List String) (acc : List String),
      (∀ k ∈ ks, k ≠ "" ∧ k ≠ "权属部门") →
      addExtraKeys (columnOrderBaseOf headerOrder) acc ks =
        firstSeen acc (ks.filter (fun k => decide (k ∉ headerOrder))) := by
  intro ks
  induction ks with
  | nil => intro acc _; rfl
  | cons k rest ih =>
    intro acc hk
    obtain ⟨hk1, hk2⟩ := hk k (List.mem_cons_self k rest)
    have hrest : ∀ a ∈ rest, a ≠ "" ∧ a ≠ "权属部门" :=
      fun a ha => hk a (List.mem_cons_of_mem k ha)
    rw [addExtraKeys_cons, List.filter_cons]
    by_cases hmem : k ∈ headerOrder
    · have hbase : k ∈ columnOrderBaseOf headerOrder :=
        List.mem_filter.mpr ⟨hmem, by simpa using hk2⟩
      rw [if_neg (by
        intro hcond
        exact hcond.2.2.1 hbase)]
      rw [if_neg (by simpa using hmem)]
      exact ih acc hrest
    · have hnbase : k ∉ columnOrderBaseOf headerOrder := by
        intro hb
        exact hmem (List.mem_filter.mp hb).1
      by_cases hacc : k ∈ acc
      · rw [if_neg (by
          intro hcond
          exact hcond.2.2.2 hacc)]
        rw [if_pos (by simpa using hmem)]
        rw [firstSeen, if_pos hacc]
        exact ih acc hrest
      · rw [if_pos ⟨hk1, hk2, hnbase, hacc⟩]
        rw [if_pos (by simpa using hmem)]
        rw [firstSeen, if_neg hacc]
        exact ih (acc ++ [k]) hrest

/-- The extra-column collection over processed rows equals first-seen
collection over the raw rows' keys absent from the header. -/
theorem extraColumns_processed (headerOrder : List String) :
    ∀ (rawRows : List Row) (acc : List String),
      (∀ row ∈ rawRows, ∀ k ∈ keysOf row, k ≠ "" ∧ k ≠ "权属部门") →
      rawRows.foldl (fun acc row =>
          addExtraKeys (columnOrderBaseOf headerOrder) acc
            (keysOf (setField row "权属部门" (assignLedgerDepartment (contentOf row))))) acc =
        firstSeen acc
          (((rawRows.map keysOf).flatten).filter (fun k => decide (k ∉ headerOrder))) := by
  intro rawRows
  induction rawRows with
  | nil => intro acc _; rfl
  | cons row rest ih =>
    intro acc hk
    have hrow := hk row (List.mem_cons_self row rest)
    have hrest : ∀ r ∈ rest, ∀ k ∈ keysOf r, k ≠ "" ∧ k ≠ "权属部门" :=
      fun r hr => hk r (List.mem_cons_of_mem row hr)
    have hder : "权属部门" ∉ keysOf row := by
      intro hmem
      exact (hrow "权属部门" hmem).2 rfl
    rw [List.foldl_cons,
      keysOf_setField_of_not_mem (assignLedgerDepartment (contentOf row)) hder,
      addExtraKeys_append_derived,
      addExtraKeys_eq_firstSeen headerOrder (keysOf row) acc hrow,
      List.map_cons, List.flatten_cons, List.filter_append,
      firstSeen_append]
    exact ih (firstSeen acc ((keysOf row).filter (fun k => decide (k ∉ headerOrder)))) hrest

/-- The handler's column order equals the specified column order, for
rows with sane keys. -/
theorem columnOrderOf_eq_spec (headerOrder : List String) (rawRows : List Row)
    (hkeys : ∀ row ∈ rawRows, ∀ k ∈ keysOf row, k ≠ "" ∧ k ≠ "权属部门") :
    columnOrderOf headerOrder rawRows = specColumnOrder headerOrder rawRows := by
  unfold columnOrderOf specColumnOrder extraColumnsOf processedRowsOf columnOrderBaseOf
  rw [List.foldl_map]
  have := extraColumns_processed headerOrder rawRows [] hkeys
  unfold columnOrderBaseOf at this
  rw [this]

/-- C1: for every input text that contains at least one keyword from the
Keyword Rule Table, `classify` returns the department mapped to the
first keyword (in the table's defined order) whose substring occurs
case-sensitively in the text, regardless of surrounding text and
regardless of any pattern rule. -/
theorem keyword_rule_first_match (text : String) (kd : List Char × List Char)
    (h : ledgerKeywordMap.find? (fun p => decide (p.1 <:+: text.data)) = some kd) :
    assignLedgerDepartment text = String.mk kd.2 := by
  unfold assignLedgerDepartment
  rw [assignL_of_find?_keyword h]

/-- Witness for C1 on a text whose surrounding characters belong to no
rule: the first matching keyword pair is 向阳城管大队 ↦ 向阳大队. -/
theorem keyword_rule_first_match_witness :
    ledgerKeywordMap.find?
        (fun p => decide (p.1 <:+: "已转向阳城管大队处理".data)) =
      some ("向阳城管大队".data, "向阳大队".data) ∧
    assignLedgerDepartment "已转向阳城管大队处理" = "向阳大队" :=
  ⟨by decide,
    keyword_rule_first_match "已转向阳城管大队处理"
      ("向阳城管大队".data, "向阳大队".data) (by decide)⟩

/-- C9 fails on the table itself: the keyword 市政 at position 19 is a
substring of the keyword 市政部 at position 20, so a more general string
precedes a more specific one. -/
theorem keyword_order_counterexample :
    20 < ledgerKeywordMap.length ∧
    (ledgerKeywordMap.getD 19 ([], [])).1 = "市政".data ∧
    (ledgerKeywordMap.getD 20 ([], [])).1 = "市政部".data ∧
    (ledgerKeywordMap.getD 19 ([], [])).1 <:+: (ledgerKeywordMap.getD 20 ([], [])).1 ∧
    ¬(∀ j, j < ledgerKeywordMap.length → ∀ i, i < j →
        ¬((ledgerKeywordMap.getD i ([], [])).1 <:+: (ledgerKeywordMap.getD j ([], [])).1)) := by
  decide

/-- C9 amended: whenever an earlier keyword is a substring of a later
keyword, both map to the same department, so first-match-wins still
returns the department the later pair would give. -/
theorem keyword_order_amended :
    ∀ j, j < ledgerKeywordMap.length → ∀ i, i < j →
      (ledgerKeywordMap.getD i ([], [])).1 <:+: (ledgerKeywordMap.getD j ([], [])).1 →
      (ledgerKeywordMap.getD i ([], [])).2 = (ledgerKeywordMap.getD j ([], [])).2 := by
  decide

/-- Witness for the amended C9 at the one violating pair (19, 20). -/
theorem keyword_order_amended_witness :
    (ledgerKeywordMap.getD 19 ([], [])).2 = (ledgerKeywordMap.getD 20 ([], [])).2 :=
  keyword_order_amended 20 (by decide) 19 (by decide) (by decide)

/-- C7 fails: the source deletes every occurrence of 科室, not only a
trailing one — on the capture 甲科室乙 the code yields 甲乙 while the
specified cleaning leaves the interior untouched. -/
theorem clean_capture_counterexample :
    cleanCapture "甲科室乙".data = "甲乙".data ∧
    specCleanC7 "甲科室乙".data = "甲科室乙".data ∧
    cleanCapture "甲科室乙".data ≠ specCleanC7 "甲科室乙".data := by
  decide

/-- C7 amended: the cleaned form equals the capture with every
whitespace and parenthesis character removed (wherever it occurs) and
then every occurrence of 科室 deleted (not only a trailing one); the
two trims of the source are redundant. -/
theorem clean_capture_amended (cap : List Char) :
    cleanCapture cap =
      removeKeshi (cap.filter (fun c => !(isParen c || isJsWs c))) :=
  cleanCapture_eq cap

/-- C2 fails: on the text 责成甲进行之前，立即转直属进行处理 no keyword
occurs, the first pattern with a non-empty capture captures 甲, that
capture resolves to no canonical department — yet the classifier
consults the later pattern 立即转(.*?)进行 and returns 直属二大队
instead of the unmatched marker. -/
theorem pattern_fallthrough_counterexample :
    (∀ p ∈ ledgerKeywordMap,
      ¬(p.1 <:+: "责成甲进行之前，立即转直属进行处理".data)) ∧
    firstPatternCapture (jsTrim "责成甲进行之前，立即转直属进行处理".data)
        ledgerPatterns = some "甲".data ∧
    resolveCapture "甲".data = none ∧
    assignLedgerDepartment "责成甲进行之前，立即转直属进行处理" = "直属二大队" ∧
    "直属二大队" ≠ "未匹配" := by
  decide

/-- C2 amended: when no keyword matches, the pattern loop cleans and
resolves each non-empty capture in pattern order; the result is the
first resolvable candidate and the unmatched marker only when no
pattern's capture resolves — an unresolvable capture falls through to
later patterns. -/
theorem pattern_fallthrough_amended (content : List Char)
    (hkw : ∀ p ∈ ledgerKeywordMap, ¬(p.1 <:+: content))
    (hne : jsTrim content ≠ []) :
    assignLedgerDepartmentL content =
      ((resolvedCandidates (jsTrim content) ledgerPatterns).head?).getD
        unmatchedMarker := by
  rw [assignL_pattern_branch hne (findKeyword_none_of_no_occurrence hkw),
    tryPatterns_eq_head]

/-- Witness for the amended C2 on the fall-through text. -/
theorem pattern_fallthrough_amended_witness :
    (∀ p ∈ ledgerKeywordMap,
      ¬(p.1 <:+: "立即转直属进行处理".data)) ∧
    jsTrim "立即转直属进行处理".data ≠ [] ∧
    assignLedgerDepartmentL "立即转直属进行处理".data =
      ((resolvedCandidates (jsTrim "立即转直属进行处理".data) ledgerPatterns).head?).getD
        unmatchedMarker :=
  ⟨by decide, by decide,
    pattern_fallthrough_amended "立即转直属进行处理".data (by decide) (by decide)⟩

/-- C10 fails: on 责成直属进行，立即转（）进行 no keyword occurs and the
second pattern captures （）, a non-empty capture of parentheses only —
but the classifier returns 直属二大队 (resolved from the first
pattern's capture 直属), not 市政中心. -/
theorem empty_capture_counterexample :
    (∀ p ∈ ledgerKeywordMap,
      ¬(p.1 <:+: "责成直属进行，立即转（）进行".data)) ∧
    execPattern "立即转".data "进行".data
        (jsTrim "责成直属进行，立即转（）进行".data) = some "（）".data ∧
    "（）".data ≠ [] ∧
    cleanCapture "（）".data = [] ∧
    assignLedgerDepartment "责成直属进行，立即转（）进行" = "直属二大队" ∧
    "直属二大队" ≠ "市政中心" := by
  decide

/-- C10 amended: when no keyword matches and the first pattern with a
non-empty captured span has a capture cleaning to the empty string, the
classifier returns 市政中心, the first canonical department, because
the empty string is a substring of every department name. -/
theorem empty_capture_amended (content cap : List Char)
    (hkw : ∀ p ∈ ledgerKeywordMap, ¬(p.1 <:+: content))
    (hcap : firstPatternCapture (jsTrim content) ledgerPatterns = some cap)
    (hclean : cleanCapture cap = []) :
    assignLedgerDepartmentL content = "市政中心".data := by
  have hne := jsTrim_ne_nil_of_firstCapture hcap
  have hres : resolveCapture cap = some "市政中心".data := by
    unfold resolveCapture
    rw [hclean]
    rfl
  rw [assignL_pattern_branch hne (findKeyword_none_of_no_occurrence hkw),
    tryPatterns_of_firstCapture hcap hres]
  rfl

/-- Witness for the amended C10 on 责成（）进行. -/
theorem empty_capture_amended_witness :
    (∀ p ∈ ledgerKeywordMap, ¬(p.1 <:+: "责成（）进行".data)) ∧
    firstPatternCapture (jsTrim "责成（）进行".data) ledgerPatterns =
      some "（）".data ∧
    cleanCapture "（）".data = [] ∧
    assignLedgerDepartmentL "责成（）进行".data = "市政中心".data :=
  ⟨by decide, by decide, by decide,
    empty_capture_amended "责成（）进行".data "（）".data
      (by decide) (by decide) (by decide)⟩

/-- C6: when no keyword matches and the pattern capture's cleaned form
is a non-empty proper substring of canonical department names (equal to
none of them), the classifier returns the first canonical department in
the list's defined order whose name contains it — an order-dependent
choice, not a best or longest match. -/
theorem fuzzy_first_containment (content cap : List Char)
    (hkw : ∀ p ∈ ledgerKeywordMap, ¬(p.1 <:+: content))
    (hcap : firstPatternCapture (jsTrim content) ledgerPatterns = some cap)
    (hne : cleanCapture cap ≠ [])
    (hnex : cleanCapture cap ∉ ledgerValidDepartmentsL)
    (hsub : ∃ v ∈ ledgerValidDepartmentsL, cleanCapture cap <:+: v) :
    ∃ i, i < ledgerValidDepartmentsL.length ∧
      assignLedgerDepartmentL content = ledgerValidDepartmentsL.getD i [] ∧
      cleanCapture cap <:+: ledgerValidDepartmentsL.getD i [] ∧
      ∀ j, j < i → ¬(cleanCapture cap <:+: ledgerValidDepartmentsL.getD j []) := by
  have hneT := jsTrim_ne_nil_of_firstCapture hcap
  have hsome : ∃ w, ledgerValidDepartmentsL.find?
      (fun v => decide (cleanCapture cap <:+: v)) = some w := by
    rw [← Option.isSome_iff_exists, List.find?_isSome]
    obtain ⟨v, hv, hinf⟩ := hsub
    exact ⟨v, hv, by simpa using hinf⟩
  obtain ⟨w, hw⟩ := hsome
  have hres : resolveCapture cap = some w := by
    unfold resolveCapture
    rw [if_neg hnex, hw]
  rw [assignL_pattern_branch hneT (findKeyword_none_of_no_occurrence hkw),
    tryPatterns_of_firstCapture hcap hres]
  obtain ⟨i, hi, hget, hpw, hbefore⟩ := find?_first_getD ([] : List Char) hw
  refine ⟨i, hi, ?_, ?_, ?_⟩
  · rw [Option.getD_some, hget]
  · rw [hget]
    simpa using hpw
  · intro j hj
    simpa using hbefore j hj

/-- Witness for C6 on 责成大队进行处理: the cleaned capture 大队 occurs
in many canonical names, and the classifier picks 直属二大队, the first
containing it. -/
theorem fuzzy_first_containment_witness :
    (∀ p ∈ ledgerKeywordMap, ¬(p.1 <:+: "责成大队进行处理".data)) ∧
    firstPatternCapture (jsTrim "责成大队进行处理".data) ledgerPatterns =
      some "大队".data ∧
    cleanCapture "大队".data ≠ [] ∧
    cleanCapture "大队".data ∉ ledgerValidDepartmentsL ∧
    (∃ v ∈ ledgerValidDepartmentsL, cleanCapture "大队".data <:+: v) ∧
    (∃ i, i < ledgerValidDepartmentsL.length ∧
      assignLedgerDepartmentL "责成大队进行处理".data =
        ledgerValidDepartmentsL.getD i [] ∧
      cleanCapture "大队".data <:+: ledgerValidDepartmentsL.getD i [] ∧
      ∀ j, j < i →
        ¬(cleanCapture "大队".data <:+: ledgerValidDepartmentsL.getD j [])) :=
  ⟨by decide, by decide, by decide, by decide, by decide,
    fuzzy_first_containment "责成大队进行处理".data "大队".data
      (by decide) (by decide) (by decide) (by decide) (by decide)⟩

/-- C4: in every successful report the per-department counts sum to the
number of matched records, the processed and unmatched totals split the
input rows, and every counted department is canonical. -/
theorem report_count_invariants (collate : String → String → Int)
    (fmt : Nat → Nat → String) (headerOrder : List String) (rawRows : List Row)
    (r : LedgerReport)
    (hok : ledgerPipeline collate fmt headerOrder rawRows = .ok r) :
    ((r.analysisEntries.map (fun e => e.2)).sum = r.matchedRows.length ∧
      r.totalProcessed = r.matchedRows.length) ∧
    r.totalProcessed + r.totalUnmatched = rawRows.length ∧
    ∀ e ∈ r.analysisEntries, e.1 ∈ ledgerValidDepartments := by
  have hr := ledgerPipeline_ok_inv hok
  subst hr
  rw [buildReport_analysisEntries, buildReport_matchedRows,
    buildReport_totalProcessed, buildReport_totalUnmatched]
  refine ⟨⟨?_, rfl⟩, ?_, ?_⟩
  · have hperm := sortLe_perm
      (fun a b => decide (cmpEntry collate a b ≤ 0))
      (countsOf (matchedRowsOf rawRows))
    have hsum := (hperm.map (fun e : String × Nat => e.2)).sum_eq
    unfold sortedEntriesOf
    rw [hsum]
    have := sumCounts_foldl deptOf (matchedRowsOf rawRows) []
    unfold countsOf
    unfold sumCounts at this
    rw [this]
    simp
  · unfold matchedRowsOf unmatchedRowsOf
    rw [filter_length_split (fun row => decide (deptOf row ∈ ledgerValidDepartments))]
    unfold processedRowsOf
    rw [List.length_map]
  · intro e he
    have hperm := sortLe_perm
      (fun a b => decide (cmpEntry collate a b ≤ 0))
      (countsOf (matchedRowsOf rawRows))
    have hmem : e ∈ countsOf (matchedRowsOf rawRows) := hperm.mem_iff.mp he
    unfold countsOf at hmem
    rcases mem_countsFoldl deptOf (matchedRowsOf rawRows) [] e hmem with h0 | h0
    · cases h0
    · obtain ⟨row, hrow, heq⟩ := h0
      rw [heq]
      have := (List.mem_filter.mp hrow).2
      simpa using this

/-- Witness for C4 on a three-row input with one unmatched record. -/
theorem report_count_invariants_witness :
    ledgerPipeline (fun _ _ => 0) (fun _ _ => "") ["答复内容"]
        [[("答复内容", "责成向阳城管大队进行处理")], [("答复内容", "无关内容")],
          [("答复内容", "立即转三大队处办")]] =
      .ok (buildReport (fun _ _ => 0) (fun _ _ => "") ["答复内容"]
        [[("答复内容", "责成向阳城管大队进行处理")], [("答复内容", "无关内容")],
          [("答复内容", "立即转三大队处办")]]) ∧
    (((buildReport (fun _ _ => 0) (fun _ _ => "") ["答复内容"]
        [[("答复内容", "责成向阳城管大队进行处理")], [("答复内容", "无关内容")],
          [("答复内容", "立即转三大队处办")]]).analysisEntries.map
            (fun e => e.2)).sum =
      (buildReport (fun _ _ => 0) (fun _ _ => "") ["答复内容"]
        [[("答复内容", "责成向阳城管大队进行处理")], [("答复内容", "无关内容")],
          [("答复内容", "立即转三大队处办")]]).matchedRows.length ∧
      (buildReport (fun _ _ => 0) (fun _ _ => "") ["答复内容"]
        [[("答复内容", "责成向阳城管大队进行处理")], [("答复内容", "无关内容")],
          [("答复内容", "立即转三大队处办")]]).totalProcessed =
      (buildReport (fun _ _ => 0) (fun _ _ => "") ["答复内容"]
        [[("答复内容", "责成向阳城管大队进行处理")], [("答复内容", "无关内容")],
          [("答复内容", "立即转三大队处办")]]).matchedRows.length) ∧
    (buildReport (fun _ _ => 0) (fun _ _ => "") ["答复内容"]
        [[("答复内容", "责成向阳城管大队进行处理")], [("答复内容", "无关内容")],
          [("答复内容", "立即转三大队处办")]]).totalProcessed +
      (buildReport (fun _ _ => 0) (fun _ _ => "") ["答复内容"]
        [[("答复内容", "责成向阳城管大队进行处理")], [("答复内容", "无关内容")],
          [("答复内容", "立即转三大队处办")]]).totalUnmatched = 3 ∧
    ∀ e ∈ (buildReport (fun _ _ => 0) (fun _ _ => "") ["答复内容"]
        [[("答复内容", "责成向阳城管大队进行处理")], [("答复内容", "无关内容")],
          [("答复内容", "立即转三大队处办")]]).analysisEntries,
      e.1 ∈ ledgerValidDepartments :=
  ⟨by rfl,
    report_count_invariants (fun _ _ => 0) (fun _ _ => "") ["答复内容"]
      [[("答复内容", "责成向阳城管大队进行处理")], [("答复内容", "无关内容")],
        [("答复内容", "立即转三大队处办")]] _ (by rfl)⟩

/-- C5: in every successful report over rows whose field names are
non-empty and distinct from the derived column name, the output column
order is the source header order without the derived column, then every
column name seen in any row but absent from the header in first-seen
order, then the derived column last. -/
theorem column_order_spec (collate : String → String → Int)
    (fmt : Nat → Nat → String) (headerOrder : List String) (rawRows : List Row)
    (r : LedgerReport)
    (hkeys : ∀ row ∈ rawRows, ∀ k ∈ keysOf row, k ≠ "" ∧ k ≠ "权属部门")
    (hok : ledgerPipeline collate fmt headerOrder rawRows = .ok r) :
    r.columnOrder = specColumnOrder headerOrder rawRows := by
  have hr := ledgerPipeline_ok_inv hok
  subst hr
  rw [buildReport_columnOrder]
  exact columnOrderOf_eq_spec headerOrder rawRows hkeys

/-- Witness for C5 mirroring the specification's column-ordering
example: header 答复内容, 处理人 and one row with an extra field 备注. -/
theorem column_order_spec_witness :
    (∀ row ∈ [[("答复内容", "责成向阳城管大队进行处理"), ("处理人", "甲")],
        [("答复内容", "乙"), ("处理人", "丙"), ("备注", "丁")]],
      ∀ k ∈ keysOf row, k ≠ "" ∧ k ≠ "权属部门") ∧
    (buildReport (fun _ _ => 0) (fun _ _ => "") ["答复内容", "处理人"]
        [[("答复内容", "责成向阳城管大队进行处理"), ("处理人", "甲")],
          [("答复内容", "乙"), ("处理人", "丙"), ("备注", "丁")]]).columnOrder =
      specColumnOrder ["答复内容", "处理人"]
        [[("答复内容", "责成向阳城管大队进行处理"), ("处理人", "甲")],
          [("答复内容", "乙"), ("处理人", "丙"), ("备注", "丁")]] ∧
    specColumnOrder ["答复内容", "处理人"]
        [[("答复内容", "责成向阳城管大队进行处理"), ("处理人", "甲")],
          [("答复内容", "乙"), ("处理人", "丙"), ("备注", "丁")]] =
      ["答复内容", "处理人", "备注", "权属部门"] :=
  ⟨by decide,
    column_order_spec (fun _ _ => 0) (fun _ _ => "") ["答复内容", "处理人"]
      [[("答复内容", "责成向阳城管大队进行处理"), ("处理人", "甲")],
        [("答复内容", "乙"), ("处理人", "丙"), ("备注", "丁")]] _
      (by decide) (by rfl),
    by decide⟩

/-- The entry comparison is total when the collator is. -/
theorem cmpEntry_total {collate : String → String → Int}
    (htot : ∀ a b : String, collate a b ≤ 0 ∨ collate b a ≤ 0)
    (a b : String × Nat) :
    decide (cmpEntry collate a b ≤ 0) = true ∨
      decide (cmpEntry collate b a ≤ 0) = true := by
  unfold cmpEntry
  by_cases hab : a.2 = b.2
  · rw [if_neg (by omega), if_neg (by omega)]
    rcases htot a.1 b.1 with h | h
    · exact Or.inl (by simpa using h)
    · exact Or.inr (by simpa using h)
  · rw [if_pos hab, if_pos (by omega)]
    by_cases h : (b.2 : Int) - (a.2 : Int) ≤ 0
    · exact Or.inl (by simpa using h)
    · exact Or.inr (by simp; omega)

/-- The entry comparison is transitive when the collator is. -/
theorem cmpEntry_trans {collate : String → String → Int}
    (htrans : ∀ a b c : String,
      collate a b ≤ 0 → collate b c ≤ 0 → collate a c ≤ 0)
    (a b c : String × Nat)
    (hab : decide (cmpEntry collate a b ≤ 0) = true)
    (hbc : decide (cmpEntry collate b c ≤ 0) = true) :
    decide (cmpEntry collate a c ≤ 0) = true := by
  rw [decide_eq_true_iff] at hab hbc ⊢
  unfold cmpEntry at hab hbc ⊢
  by_cases h1 : a.2 = b.2 <;> by_cases h2 : b.2 = c.2
  · rw [if_neg (by omega)] at hab
    rw [if_neg (by omega)] at hbc
    rw [if_neg (by omega)]
    exact htrans a.1 b.1 c.1 hab hbc
  · rw [if_pos (by omega)] at hbc
    rw [if_pos (by omega)]
    omega
  · rw [if_pos (by omega)] at hab
    rw [if_pos (by omega)]
    omega
  · rw [if_pos (by omega)] at hab
    rw [if_pos (by omega)] at hbc
    by_cases h3 : a.2 = c.2
    · omega
    · rw [if_pos (by omega)]
      omega

/-- C8: in every successful report (for a collator that is a total
preorder) the per-department rows are sorted by count descending with
ties broken by the collator ascending, and the analysis table is those
rows followed by exactly the three fixed summary rows 已办结, 核实退回
and 总计, each with an empty ratio. -/
theorem breakdown_sorted_and_summary (collate : String → String → Int)
    (fmt : Nat → Nat → String) (headerOrder : List String) (rawRows : List Row)
    (r : LedgerReport)
    (htot : ∀ a b : String, collate a b ≤ 0 ∨ collate b a ≤ 0)
    (htrans : ∀ a b c : String,
      collate a b ≤ 0 → collate b c ≤ 0 → collate a c ≤ 0)
    (hok : ledgerPipeline collate fmt headerOrder rawRows = .ok r) :
    r.analysisEntries.Pairwise (fun a b =>
      b.2 < a.2 ∨ (a.2 = b.2 ∧ collate a.1 b.1 ≤ 0)) ∧
    r.analysisRows =
      r.analysisEntries.map (fun e =>
        (e.1, e.2,
          if 0 < r.totalProcessed then fmt e.2 r.totalProcessed else "0.00%")) ++
      [("已办结", r.totalProcessed, ""), ("核实退回", r.totalUnmatched, ""),
        ("总计", r.grandTotal, "")] := by
  have hr := ledgerPipeline_ok_inv hok
  subst hr
  constructor
  · rw [buildReport_analysisEntries]
    unfold sortedEntriesOf
    have hpair := sortLe_pairwise (cmpEntry_total htot) (cmpEntry_trans htrans)
      (countsOf (matchedRowsOf rawRows))
    refine hpair.imp ?_
    intro a b hab
    rw [decide_eq_true_iff] at hab
    unfold cmpEntry at hab
    by_cases h : a.2 = b.2
    · rw [if_neg (by omega)] at hab
      exact Or.inr ⟨h, hab⟩
    · rw [if_pos (by omega)] at hab
      exact Or.inl (by omega)
  · rfl

/-- Witness for C8 on a two-department input with the constant-zero
collator. -/
theorem breakdown_sorted_and_summary_witness :
    (∀ a b : String, (0 : Int) ≤ 0 ∨ (0 : Int) ≤ 0) ∧
    ((buildReport (fun _ _ => 0) (fun _ _ => "") ["答复内容"]
        [[("答复内容", "责成向阳城管大队进行处理")],
          [("答复内容", "立即转三大队处办")]]).analysisEntries.Pairwise (fun a b =>
        b.2 < a.2 ∨ (a.2 = b.2 ∧ (0 : Int) ≤ 0)) ∧
      (buildReport (fun _ _ => 0) (fun _ _ => "") ["答复内容"]
        [[("答复内容", "责成向阳城管大队进行处理")],
          [("答复内容", "立即转三大队处办")]]).analysisRows =
        (buildReport (fun _ _ => 0) (fun _ _ => "") ["答复内容"]
          [[("答复内容", "责成向阳城管大队进行处理")],
            [("答复内容", "立即转三大队处办")]]).analysisEntries.map (fun e =>
          (e.1, e.2,
            if 0 < (buildReport (fun _ _ => 0) (fun _ _ => "") ["答复内容"]
              [[("答复内容", "责成向阳城管大队进行处理")],
                [("答复内容", "立即转三大队处办")]]).totalProcessed then
              (fun _ _ => "") e.2 ((buildReport (fun _ _ => 0) (fun _ _ => "") ["答复内容"]
                [[("答复内容", "责成向阳城管大队进行处理")],
                  [("答复内容", "立即转三大队处办")]]).totalProcessed)
            else "0.00%")) ++
        [("已办结", (buildReport (fun _ _ => 0) (fun _ _ => "") ["答复内容"]
            [[("答复内容", "责成向阳城管大队进行处理")],
              [("答复内容", "立即转三大队处办")]]).totalProcessed, ""),
          ("核实退回", (buildReport (fun _ _ => 0) (fun _ _ => "") ["答复内容"]
            [[("答复内容", "责成向阳城管大队进行处理")],
              [("答复内容", "立即转三大队处办")]]).totalUnmatched, ""),
          ("总计", (buildReport (fun _ _ => 0) (fun _ _ => "") ["答复内容"]
            [[("答复内容", "责成向阳城管大队进行处理")],
              [("答复内容", "立即转三大队处办")]]).grandTotal, "")]) :=
  ⟨fun _ _ => Or.inl le_rfl,
    breakdown_sorted_and_summary (fun _ _ => 0) (fun _ _ => "") ["答复内容"]
      [[("答复内容", "责成向阳城管大队进行处理")],
        [("答复内容", "立即转三大队处办")]] _
      (fun _ _ => Or.inl le_rfl) (fun _ _ _ _ _ => le_rfl) (by rfl)⟩

/-- C3 fails as a plain biconditional: when the reply-content column is
missing, every record also classifies to the unmatched marker, yet the
pipeline fails with the missing-column error, not the no-matches error. -/
theorem error_surface_counterexample :
    ledgerPipeline (fun _ _ => 0) (fun _ _ => "") [] [[("甲", "责成向阳大队进行")]] =
      .error .missingColumn ∧
    (∀ row ∈ ([[("甲", "责成向阳大队进行")]] : List Row),
      assignLedgerDepartment (contentOf row) = "未匹配") ∧
    ledgerPipeline (fun _ _ => 0) (fun _ _ => "") [] [[("甲", "责成向阳大队进行")]] ≠
      .error .noMatches := by
  refine ⟨by rfl, by decide, ?_⟩
  intro h
  have hmc : ledgerPipeline (fun _ _ => 0) (fun _ _ => "") []
      [[("甲", "责成向阳大队进行")]] = .error .missingColumn := rfl
  exact LedgerFailure.noConfusion (Except.error.inj (hmc.symm.trans h))

/-- C3 amended: for non-empty input the pipeline fails with the
missing-column error exactly when 答复内容 is absent from both the
header and every row; it fails with the no-matches error exactly when
the column is present somewhere and every record classifies to the
unmatched marker; these are the only failures, and otherwise the
pipeline succeeds with the assembled report. -/
theorem error_surface_amended (collate : String → String → Int)
    (fmt : Nat → Nat → String) (headerOrder : List String) (rawRows : List Row)
    (hne : rawRows ≠ []) :
    (ledgerPipeline collate fmt headerOrder rawRows = .error .missingColumn ↔
      ("答复内容" ∉ headerOrder ∧ ∀ row ∈ rawRows, "答复内容" ∉ keysOf row)) ∧
    (ledgerPipeline collate fmt headerOrder rawRows = .error .noMatches ↔
      (("答复内容" ∈ headerOrder ∨ ∃ row ∈ rawRows, "答复内容" ∈ keysOf row) ∧
        ∀ row ∈ rawRows, assignLedgerDepartment (contentOf row) = "未匹配")) ∧
    (∀ e, ledgerPipeline collate fmt headerOrder rawRows = .error e →
      e = .missingColumn ∨ e = .noMatches) ∧
    ((("答复内容" ∈ headerOrder ∨ ∃ row ∈ rawRows, "答复内容" ∈ keysOf row) ∧
        ¬∀ row ∈ rawRows, assignLedgerDepartment (contentOf row) = "未匹配") →
      ledgerPipeline collate fmt headerOrder rawRows =
        .ok (buildReport collate fmt headerOrder rawRows)) := by
  have hEmpty : rawRows.isEmpty = false := by simpa [List.isEmpty_iff] using hne
  have hP : ¬("答复内容" ∉ headerOrder ∧ ∀ row ∈ rawRows, "答复内容" ∉ keysOf row) ↔
      ("答复内容" ∈ headerOrder ∨ ∃ row ∈ rawRows, "答复内容" ∈ keysOf row) := by
    constructor
    · intro h
      by_cases h1 : "答复内容" ∈ headerOrder
      · exact Or.inl h1
      · right
        by_contra h2
        push_neg at h2
        exact h ⟨h1, h2⟩
    · rintro (h1 | ⟨row, hrow, hk⟩) ⟨hh, hr⟩
      · exact hh h1
      · exact hr row hrow hk
  by_cases hmc : "答复内容" ∉ headerOrder ∧ ∀ row ∈ rawRows, "答复内容" ∉ keysOf row
  · have hpipe : ledgerPipeline collate fmt headerOrder rawRows =
        .error .missingColumn := by
      unfold ledgerPipeline
      rw [hEmpty, if_neg Bool.false_ne_true, if_pos hmc]
    refine ⟨⟨fun _ => hmc, fun _ => hpipe⟩, ⟨?_, ?_⟩, ?_, ?_⟩
    · intro h
      rw [hpipe] at h
      exact absurd (Except.error.inj h) (by simp)
    · rintro ⟨hpres, _⟩
      exact absurd hmc (hP.mpr hpres)
    · intro e he
      rw [hpipe] at he
      exact Or.inl (Except.error.inj he).symm
    · rintro ⟨hpres, _⟩
      exact absurd hmc (hP.mpr hpres)
  · have hpres : "答复内容" ∈ headerOrder ∨ ∃ row ∈ rawRows, "答复内容" ∈ keysOf row :=
      hP.mp hmc
    by_cases hz : (matchedRowsOf rawRows).length = 0
    · have hallun : ∀ row ∈ rawRows, assignLedgerDepartment (contentOf row) = "未匹配" := by
        rw [← matchedRows_nil_iff]
        exact List.length_eq_zero.mp hz
      have hpipe : ledgerPipeline collate fmt headerOrder rawRows =
          .error .noMatches := by
        unfold ledgerPipeline
        rw [hEmpty, if_neg Bool.false_ne_true, if_neg hmc, if_pos hz]
      refine ⟨⟨?_, fun hcond => absurd hcond hmc⟩,
        ⟨fun _ => ⟨hpres, hallun⟩, fun _ => hpipe⟩, ?_, ?_⟩
      · intro h
        rw [hpipe] at h
        exact absurd (Except.error.inj h) (by simp)
      · intro e he
        rw [hpipe] at he
        exact Or.inr (Except.error.inj he).symm
      · rintro ⟨_, hnall⟩
        exact absurd hallun hnall
    · have hpipe : ledgerPipeline collate fmt headerOrder rawRows =
          .ok (buildReport collate fmt headerOrder rawRows) := by
        unfold ledgerPipeline
        rw [hEmpty, if_neg Bool.false_ne_true, if_neg hmc, if_neg hz]
      refine ⟨⟨?_, fun hcond => absurd hcond hmc⟩, ⟨?_, ?_⟩, ?_, fun _ => hpipe⟩
      · intro h
        rw [hpipe] at h
        exact Except.noConfusion h
      · intro h
        rw [hpipe] at h
        exact Except.noConfusion h
      · rintro ⟨_, hall⟩
        exact absurd (List.length_eq_zero.mpr ((matchedRows_nil_iff rawRows).mpr hall)) hz
      · intro e he
        rw [hpipe] at he
        exact Except.noConfusion he

/-- Witness for the amended C3 on a one-row input with the column
present and a matching record. -/
theorem error_surface_amended_witness :
    ([[("答复内容", "责成向阳大队进行")]] : List Row) ≠ [] ∧
    ((ledgerPipeline (fun _ _ => 0) (fun _ _ => "") ["答复内容"]
        [[("答复内容", "责成向阳大队进行")]] = .error .missingColumn ↔
      ("答复内容" ∉ ["答复内容"] ∧
        ∀ row ∈ ([[("答复内容", "责成向阳大队进行")]] : List Row),
          "答复内容" ∉ keysOf row)) ∧
    (ledgerPipeline (fun _ _ => 0) (fun _ _ => "") ["答复内容"]
        [[("答复内容", "责成向阳大队进行")]] = .error .noMatches ↔
      (("答复内容" ∈ ["答复内容"] ∨
          ∃ row ∈ ([[("答复内容", "责成向阳大队进行")]] : List Row),
            "答复内容" ∈ keysOf row) ∧
        ∀ row ∈ ([[("答复内容", "责成向阳大队进行")]] : List Row),
          assignLedgerDepartment (contentOf row) = "未匹配")) ∧
    (∀ e, ledgerPipeline (fun _ _ => 0) (fun _ _ => "") ["答复内容"]
        [[("答复内容", "责成向阳大队进行")]] = .error e →
      e = .missingColumn ∨ e = .noMatches) ∧
    ((("答复内容" ∈ ["答复内容"] ∨
          ∃ row ∈ ([[("答复内容", "责成向阳大队进行")]] : List Row),
            "答复内容" ∈ keysOf row) ∧
        ¬∀ row ∈ ([[("答复内容", "责成向阳大队进行")]] : List Row),
          assignLedgerDepartment (contentOf row) = "未匹配") →
      ledgerPipeline (fun _ _ => 0) (fun _ _ => "") ["答复内容"]
          [[("答复内容", "责成向阳大队进行")]] =
        .ok (buildReport (fun _ _ => 0) (fun _ _ => "") ["答复内容"]
          [[("答复内容", "责成向阳大队进行")]]))) :=
  ⟨by simp,
    error_surface_amended (fun _ _ => 0) (fun _ _ => "") ["答复内容"]
      [[("答复内容", "责成向阳大队进行")]] (by simp)⟩
